import Mathlib

/-!
# learnurcu: sequential verification of `queue.c`

`queue.c` wraps the liburcu lock-free queue (`cds_lfq_*`) and the `urcu_memb`
reclamation flavour into two entry points, `con_push` and `con_pop`, and a
demo program (`push_thread`, `pop_thread`, `main`).

The embedding below runs the code of one thread.  A program is a function from
the process state to a result, the list of calls and memory accesses it made
(in order), and the new state.  Functions defined in `queue.c` are translated
statement by statement.  The liburcu and libc functions they call are not part
of the repository; each one is a primitive whose doc comment says what it was
modelled from.  Allocation hands out addresses in increasing order, so an
address is never handed out twice.
-/

namespace LearnUrcu

/-! ## Data model -/

/-- A C pointer.  Address `0` is `NULL`. -/
abbrev Ptr := Nat

/-- The null pointer. -/
def NULL : Ptr := 0

/-- First member of `enum { Q_OK, Q_ERROR }`. -/
def Q_OK : Int := 0

/-- Second member of `enum { Q_OK, Q_ERROR }`. -/
def Q_ERROR : Int := 1

/-- The `value` member of `node_t`.  The members `node` (the link owned by the
queue library) and `head` (the callback record owned by the reclamation
library) carry no data of their own in this embedding: a pointer to either
member is identified with the address of the `node_t` that contains it. -/
structure node_t where
  value : Ptr
deriving DecidableEq, Repr

/-- The functions of `queue.c` that are passed as `call_rcu` callbacks.
`free_node` is the only one. -/
inductive Callback where
  | free_node
deriving DecidableEq, Repr

/-- One entry per library call or `node_t` memory access, with its arguments
and result. -/
inductive Event where
  | malloc (result : Ptr)
  | free (p : Ptr)
  | store_value (node : Ptr) (value : Ptr)
  | load_value (node : Ptr) (value : Ptr)
  | cds_lfq_node_init_rcu (node : Ptr)
  | cds_lfq_init_rcu
  | cds_lfq_enqueue_rcu (node : Ptr)
  | cds_lfq_dequeue_rcu (result : Ptr)
  | urcu_memb_read_lock
  | urcu_memb_read_unlock
  | urcu_memb_call_rcu (head : Ptr) (func : Callback)
  | urcu_memb_register_thread
  | urcu_memb_unregister_thread
deriving DecidableEq, Repr

/-- The state of the process as seen by one thread.

* `brk`: the highest address the allocator has handed out so far;
* `heap`: the `node_t` objects that have been written and not freed, newest
  binding first;
* `sentinel`, `chain`: the queue, as the address of its sentinel node and the
  addresses of the nodes linked after the sentinel, in link order;
* `depth`: how many read-side critical sections this thread has open;
* `registered`: whether this thread is in the reclamation registry;
* `retired`: the callbacks handed to `call_rcu` that have not run yet, oldest
  first. -/
structure State where
  brk : Ptr
  heap : List (Ptr × node_t)
  sentinel : Ptr
  chain : List Ptr
  depth : Nat
  registered : Bool
  retired : List (Ptr × Callback)
deriving DecidableEq, Repr

/-- What running a piece of code yields: its return value, the events it
produced and the state it leaves behind. -/
structure Res (α : Type) where
  val : α
  log : List Event
  st : State

/-- A piece of code returning an `α`. -/
def Prog (α : Type) : Type := State → Res α

/-- A statement that only returns. -/
def Prog.pure {α : Type} (a : α) : Prog α := fun s => ⟨a, [], s⟩

/-- Sequencing: the second part runs in the state left by the first, and the
events are concatenated. -/
def Prog.bind {α β : Type} (m : Prog α) (f : α → Prog β) : Prog β := fun s =>
  let r := m s
  let r2 := f r.val r.st
  ⟨r2.val, r.log ++ r2.log, r2.st⟩

instance : Monad Prog where
  pure := Prog.pure
  bind := Prog.bind

/-! ## Memory -/

/-- Modelled from the spec: `malloc` belongs to libc.  The spec only says that
node allocation either succeeds or fails (`ALLOC_FAILURE`); `ok` is that
outcome.  A successful call hands out the next unused address, which is never
`NULL`; a failing call returns `NULL` and changes nothing. -/
def malloc (ok : Bool) : Prog Ptr := fun s =>
  if ok then
    ⟨s.brk + 1, [Event.malloc (s.brk + 1)], { s with brk := s.brk + 1 }⟩
  else
    ⟨NULL, [Event.malloc NULL], s⟩

/-- Modelled from the spec: `free` belongs to libc.  The object at `p` stops
being live. -/
def free (p : Ptr) : Prog Unit := fun s =>
  ⟨(), [Event.free p], { s with heap := s.heap.filter (fun c => c.1 != p) }⟩

/-- The contents of the heap at `p`; reading an address that holds no
`node_t` yields `none`. -/
def readHeap : List (Ptr × node_t) → Ptr → Option node_t
  | [], _ => none
  | (a, c) :: rest, p => if a = p then some c else readHeap rest p

/-- The C expression `node->value`.  Reading through a pointer that holds no
object is undefined in C; the model returns `NULL` there. -/
def valueAt (s : State) (node : Ptr) : Ptr :=
  match readHeap s.heap node with
  | some c => c.value
  | none => NULL

/-- The C statement `node->value = value`. -/
def store_value (node : Ptr) (value : Ptr) : Prog Unit := fun s =>
  ⟨(), [Event.store_value node value], { s with heap := (node, ⟨value⟩) :: s.heap }⟩

/-- The C expression `node->value` as a program step. -/
def load_value (node : Ptr) : Prog Ptr := fun s =>
  ⟨valueAt s node, [Event.load_value node (valueAt s node)], s⟩

/-- The C macro `caa_container_of(ptr, node_t, member)`: pointers to the
members `node` and `head` are identified with the address of their
`node_t`. -/
def caa_container_of (member : Ptr) : Ptr := member

/-! ## The queue library -/

/-- Modelled from the spec: `cds_lfq_node_init_rcu` belongs to liburcu.  It
clears the link of a node that is not in a queue yet (spec §3: the "next" link
is null until the node is appended); the link is represented by `chain`, so
the call is only recorded. -/
def cds_lfq_node_init_rcu (node : Ptr) : Prog Unit := fun s =>
  ⟨(), [Event.cds_lfq_node_init_rcu node], s⟩

/-- Modelled from the spec: `cds_lfq_init_rcu` belongs to liburcu.  Spec §4.3
and §6: `init` creates the sentinel and makes head and tail point at it, so
nothing is linked after the sentinel. -/
def cds_lfq_init_rcu : Prog Unit := fun s =>
  ⟨(), [Event.cds_lfq_init_rcu],
    { s with brk := s.brk + 1, sentinel := s.brk + 1, chain := [] }⟩

/-- Modelled from the spec: `cds_lfq_enqueue_rcu` belongs to liburcu.  Spec
§4.1 `push`: the new node is swapped into the successor link of the last node
of the chain and the tail pointer is advanced to it.  Run by one thread, no
swap loses a race. -/
def cds_lfq_enqueue_rcu (node : Ptr) : Prog Unit := fun s =>
  ⟨(), [Event.cds_lfq_enqueue_rcu node], { s with chain := s.chain ++ [node] }⟩

/-- Modelled from the spec: `cds_lfq_dequeue_rcu` belongs to liburcu.  Spec
§3 and §4.1 `pop`: the queue is empty iff the successor link of the head is
null, and then nothing changes; otherwise the first node after the sentinel is
unlinked.  `con_pop` reads the value out of the node it gets back and retires
that same node, so the node handed back is the unlinked one. -/
def cds_lfq_dequeue_rcu : Prog Ptr := fun s =>
  match s.chain with
  | [] => ⟨NULL, [Event.cds_lfq_dequeue_rcu NULL], s⟩
  | n :: rest => ⟨n, [Event.cds_lfq_dequeue_rcu n], { s with chain := rest }⟩

/-! ## The reclamation library -/

/-- Modelled from the spec: `urcu_memb_read_lock` belongs to liburcu.  Spec
§4.2 `enter_critical_section`: the thread is inside one more read-side
critical section. -/
def urcu_memb_read_lock : Prog Unit := fun s =>
  ⟨(), [Event.urcu_memb_read_lock], { s with depth := s.depth + 1 }⟩

/-- Modelled from the spec: `urcu_memb_read_unlock` belongs to liburcu.  Spec
§4.2 `exit_critical_section`: the innermost open critical section ends. -/
def urcu_memb_read_unlock : Prog Unit := fun s =>
  ⟨(), [Event.urcu_memb_read_unlock], { s with depth := s.depth - 1 }⟩

/-- Modelled from the spec: `urcu_memb_call_rcu` belongs to liburcu.  Spec
§4.2 `retire`: the node is appended to the retired list, with the callback
that will release it, rather than being freed. -/
def urcu_memb_call_rcu (head : Ptr) (func : Callback) : Prog Unit := fun s =>
  ⟨(), [Event.urcu_memb_call_rcu head func], { s with retired := s.retired ++ [(head, func)] }⟩

/-- Modelled from the spec: `urcu_memb_register_thread` belongs to liburcu.
Spec §4.2: the thread is added to the registry. -/
def urcu_memb_register_thread : Prog Unit := fun s =>
  ⟨(), [Event.urcu_memb_register_thread], { s with registered := true }⟩

/-- Modelled from the spec: `urcu_memb_unregister_thread` belongs to liburcu.
Spec §4.2: the thread is removed from the registry. -/
def urcu_memb_unregister_thread : Prog Unit := fun s =>
  ⟨(), [Event.urcu_memb_unregister_thread], { s with registered := false }⟩

/-! ## `queue.c` -/

/-- The function `_con_node_init` (queue.c lines 17-27).  `ok` is the outcome of the
`malloc` call. -/
def _con_node_init (ok : Bool) (value : Ptr) : Prog Ptr := do
  let node ← malloc ok
  if node = NULL then
    pure NULL
  else do
    store_value node value
    cds_lfq_node_init_rcu node
    pure node

/-- The function `con_push` (queue.c lines 32-44).  `ok` is the outcome of the one `malloc`
call made through `_con_node_init`. -/
def con_push (ok : Bool) (new_element : Ptr) : Prog Int := do
  let node ← _con_node_init ok new_element
  if node = NULL then
    pure Q_ERROR
  else do
    urcu_memb_read_lock
    cds_lfq_enqueue_rcu node
    urcu_memb_read_unlock
    pure Q_OK

/-- The function `free_node` (queue.c lines 46-50). -/
def free_node (head : Ptr) : Prog Unit := do
  let node := caa_container_of head
  free node

/-- Calling through a function pointer stored by `call_rcu`. -/
def Callback.run : Callback → Ptr → Prog Unit
  | Callback.free_node, head => LearnUrcu.free_node head

/-- The function `con_pop` (queue.c lines 56-73). -/
def con_pop : Prog Ptr := do
  urcu_memb_read_lock
  let qnode ← cds_lfq_dequeue_rcu
  urcu_memb_read_unlock
  if qnode = NULL then
    pure NULL
  else do
    let node := caa_container_of qnode
    let return_value ← load_value node
    urcu_memb_call_rcu node Callback.free_node
    pure return_value

/-! ## Running sequences of calls on one thread -/

/-- The process before `main` has done anything: nothing allocated, no queue,
no critical section open, thread not registered. -/
def boot : State :=
  { brk := 0, heap := [], sentinel := NULL, chain := [], depth := 0,
    registered := false, retired := [] }

/-- The first two calls of `main` (queue.c lines 125 and 127): the queue is
initialised and the calling thread registers. -/
def startup : Prog Unit := do
  cds_lfq_init_rcu
  urcu_memb_register_thread

/-- The freshly initialised queue. -/
def fresh : State := (startup boot).st

/-- The element references held by the queue, oldest first: the `value` of
each node linked after the sentinel. -/
def contents (s : State) : List Ptr := s.chain.map (valueAt s)

/-- A call made by the client: `con_push(queue, v)`, together with the outcome
`ok` of the allocation inside it, or `con_pop(queue)`. -/
inductive Op where
  | push (ok : Bool) (v : Ptr)
  | pop
deriving DecidableEq, Repr

/-- What the client sees of a call: the element it passed to `con_push` and
the code returned, or the pointer returned by `con_pop`. -/
inductive Obs where
  | push (v : Ptr) (ret : Int)
  | pop (ret : Ptr)
deriving DecidableEq, Repr

/-- One client call. -/
def step : Op → State → Obs × State
  | Op.push ok v, s => (Obs.push v (con_push ok v s).val, (con_push ok v s).st)
  | Op.pop, s => (Obs.pop (con_pop s).val, (con_pop s).st)

/-- A sequence of client calls, one after the other. -/
def run : List Op → State → List Obs × State
  | [], s => ([], s)
  | op :: ops, s =>
    let r := step op s
    let rs := run ops r.2
    (r.1 :: rs.1, rs.2)

/-- The elements whose `con_push` returned `Q_OK`, in call order. -/
def pushedOK : List Obs → List Ptr
  | [] => []
  | Obs.push v ret :: rest => if ret = Q_OK then v :: pushedOK rest else pushedOK rest
  | Obs.pop _ :: rest => pushedOK rest

/-- The pointers returned by `con_pop` that are not `NULL`, in call order. -/
def poppedValues : List Obs → List Ptr
  | [] => []
  | Obs.push _ _ :: rest => poppedValues rest
  | Obs.pop ret :: rest => if ret = NULL then poppedValues rest else ret :: poppedValues rest

/-- All elements passed to `con_push`, whatever the call returned. -/
def pushArgs : List Op → List Ptr
  | [] => []
  | Op.push _ v :: rest => v :: pushArgs rest
  | Op.pop :: rest => pushArgs rest

/-- How often an event occurs in a log. -/
def occurrences (e : Event) (log : List Event) : Nat := log.count e

/-- Whether a log contains a call to `free`. -/
def callsFree : List Event → Bool
  | [] => false
  | Event.free _ :: _ => true
  | _ :: rest => callsFree rest

/-- Whether a log contains a call to `call_rcu`. -/
def callsCallRcu : List Event → Bool
  | [] => false
  | Event.urcu_memb_call_rcu _ _ :: _ => true
  | _ :: rest => callsCallRcu rest

/-! ## The demo program, as the calls each thread body makes -/

/-- The constant `N_PUSH_THREADS` (queue.c line 78). -/
def N_PUSH_THREADS : Nat := 4

/-- The constant `N_POP_THREADS` (queue.c line 79). -/
def N_POP_THREADS : Nat := 4

/-- The constant `NUM` (queue.c line 80). -/
def NUM : Nat := 1000000

/-- The calls a thread body makes, in program order (`printf` left out). -/
inductive ThreadCall where
  | cds_lfq_init_rcu
  | cds_lfq_destroy_rcu
  | urcu_memb_register_thread
  | urcu_memb_unregister_thread
  | thrd_create
  | thrd_join
  | thrd_exit
  | malloc
  | free
  | con_push
  | con_pop
deriving DecidableEq, Repr

/-- The loop of `push_thread` (queue.c lines 88-93) run for `n` iterations. -/
def push_loop : Nat → List ThreadCall
  | 0 => []
  | n + 1 => ThreadCall.malloc :: ThreadCall.con_push :: push_loop n

/-- The function `push_thread` (queue.c lines 83-96). -/
def push_thread : List ThreadCall := push_loop NUM ++ [ThreadCall.thrd_exit]

/-- What one iteration of the loop of `pop_thread` got from `con_pop`: `NULL`,
an element other than the kill signal, or the kill signal `-1`. -/
inductive Popped where
  | nothing
  | element
  | kill
deriving DecidableEq, Repr

/-- The function `pop_thread` (queue.c lines 99-118), given what `con_pop` returns in its
successive iterations.  The loop ends at the first kill signal; when the list
ends first the thread is still in the loop. -/
def pop_thread : List Popped → List ThreadCall
  | [] => []
  | Popped.nothing :: rest => ThreadCall.con_pop :: pop_thread rest
  | Popped.element :: rest => ThreadCall.con_pop :: ThreadCall.free :: pop_thread rest
  | Popped.kill :: _ => [ThreadCall.con_pop, ThreadCall.free, ThreadCall.thrd_exit]

/-- The kill-signal loop of `main` (queue.c lines 144-148) run for `n`
iterations. -/
def kill_loop : Nat → List ThreadCall
  | 0 => []
  | n + 1 => ThreadCall.malloc :: ThreadCall.con_push :: kill_loop n

/-- The function `main` (queue.c lines 120-158). -/
def main : List ThreadCall :=
  [ThreadCall.cds_lfq_init_rcu, ThreadCall.urcu_memb_register_thread]
    ++ List.replicate N_PUSH_THREADS ThreadCall.thrd_create
    ++ List.replicate N_POP_THREADS ThreadCall.thrd_create
    ++ List.replicate N_PUSH_THREADS ThreadCall.thrd_join
    ++ kill_loop N_POP_THREADS
    ++ List.replicate N_POP_THREADS ThreadCall.thrd_join
    ++ [ThreadCall.cds_lfq_destroy_rcu, ThreadCall.urcu_memb_unregister_thread]

/-- Scans the calls of one thread, `registered` telling whether the thread is
registered at this point: every `con_push` and `con_pop` must come while the
thread is registered, and a thread that registered must have unregistered by
the end. -/
def insideRegistration : Bool → List ThreadCall → Bool
  | registered, [] => !registered
  | _, ThreadCall.urcu_memb_register_thread :: rest => insideRegistration true rest
  | _, ThreadCall.urcu_memb_unregister_thread :: rest => insideRegistration false rest
  | registered, ThreadCall.con_push :: rest => registered && insideRegistration registered rest
  | registered, ThreadCall.con_pop :: rest => registered && insideRegistration registered rest
  | registered, _ :: rest => insideRegistration registered rest

/-! ## Invariant of the states the client can reach -/

/-- The nodes in the queue are distinct, are not `NULL` and were handed out
by the allocator; the retired nodes were handed out by the allocator and are
not in the queue; every node in the queue is a live object of the heap. -/
def Inv (s : State) : Prop :=
  s.chain.Nodup ∧ (∀ n ∈ s.chain, n ≠ NULL ∧ n ≤ s.brk) ∧
    (∀ r ∈ s.retired, r.1 ≤ s.brk ∧ r.1 ∉ s.chain) ∧
    ∀ n ∈ s.chain, readHeap s.heap n ≠ none

/-! ## Closed forms of the two entry points -/

theorem bind_apply {α β : Type} (m : Prog α) (f : α → Prog β) (s : State) :
    (m >>= f) s =
      ⟨(f (m s).val (m s).st).val, (m s).log ++ (f (m s).val (m s).st).log,
        (f (m s).val (m s).st).st⟩ := rfl

theorem pure_apply {α : Type} (a : α) (s : State) : (pure a : Prog α) s = ⟨a, [], s⟩ := rfl

theorem con_push_ok (v : Ptr) (s : State) :
    con_push true v s =
      ⟨Q_OK,
        [Event.malloc (s.brk + 1), Event.store_value (s.brk + 1) v,
          Event.cds_lfq_node_init_rcu (s.brk + 1), Event.urcu_memb_read_lock,
          Event.cds_lfq_enqueue_rcu (s.brk + 1), Event.urcu_memb_read_unlock],
        { s with brk := s.brk + 1, heap := (s.brk + 1, ⟨v⟩) :: s.heap,
                 chain := s.chain ++ [s.brk + 1] }⟩ := by
  simp [con_push, _con_node_init, bind_apply, pure_apply, malloc, NULL, store_value,
    cds_lfq_node_init_rcu, urcu_memb_read_lock, cds_lfq_enqueue_rcu, urcu_memb_read_unlock]

theorem con_push_fail (v : Ptr) (s : State) :
    con_push false v s = ⟨Q_ERROR, [Event.malloc NULL], s⟩ := by
  simp [con_push, _con_node_init, bind_apply, pure_apply, malloc, NULL]

theorem con_pop_nil (s : State) (h : s.chain = []) :
    con_pop s =
      ⟨NULL,
        [Event.urcu_memb_read_lock, Event.cds_lfq_dequeue_rcu NULL,
          Event.urcu_memb_read_unlock], s⟩ := by
  cases s
  simp only at h
  subst h
  simp [con_pop, bind_apply, pure_apply, urcu_memb_read_lock, cds_lfq_dequeue_rcu,
    urcu_memb_read_unlock, NULL]

theorem con_pop_cons (s : State) (n : Ptr) (rest : List Ptr) (h : s.chain = n :: rest)
    (hn : n ≠ NULL) :
    con_pop s =
      ⟨valueAt s n,
        [Event.urcu_memb_read_lock, Event.cds_lfq_dequeue_rcu n,
          Event.urcu_memb_read_unlock, Event.load_value n (valueAt s n),
          Event.urcu_memb_call_rcu n Callback.free_node],
        { s with chain := rest, retired := s.retired ++ [(n, Callback.free_node)] }⟩ := by
  cases s
  simp only at h
  subst h
  simp [con_pop, bind_apply, pure_apply, urcu_memb_read_lock, cds_lfq_dequeue_rcu,
    urcu_memb_read_unlock, load_value, urcu_memb_call_rcu, caa_container_of, hn, valueAt]

/-! ## Invariant and contents across calls -/

theorem Inv_fresh : Inv fresh := by
  simp [Inv, fresh, startup, bind_apply, cds_lfq_init_rcu, urcu_memb_register_thread, boot]

theorem contents_fresh : contents fresh = [] := by
  simp [contents, fresh, startup, bind_apply, cds_lfq_init_rcu, urcu_memb_register_thread, boot]

theorem contents_eq_nil (s : State) : contents s = [] ↔ s.chain = [] := by
  simp [contents]

theorem Inv_push (ok : Bool) (v : Ptr) (s : State) (h : Inv s) : Inv (con_push ok v s).st := by
  cases ok
  · rw [con_push_fail]; exact h
  · rw [con_push_ok]
    obtain ⟨hnd, hch, hret, hlive⟩ := h
    refine ⟨?_, ?_, ?_, ?_⟩
    · rw [List.nodup_append]
      refine ⟨hnd, List.nodup_singleton _, ?_⟩
      intro a ha hb
      rw [List.mem_singleton] at hb
      subst hb
      exact Nat.not_succ_le_self _ (hch _ ha).2
    · intro n hn
      simp only [List.mem_append, List.mem_singleton] at hn
      rcases hn with hn | hn
      · exact ⟨(hch n hn).1, Nat.le_succ_of_le (hch n hn).2⟩
      · subst hn; simp [NULL]
    · intro r hr
      have hr1 := (hret r hr).1
      refine ⟨Nat.le_succ_of_le hr1, ?_⟩
      simp only [List.mem_append, List.mem_singleton, not_or]
      exact ⟨(hret r hr).2, Nat.ne_of_lt (Nat.lt_succ_of_le hr1)⟩
    · intro n hn
      simp only [List.mem_append, List.mem_singleton] at hn
      by_cases he : s.brk + 1 = n
      · simp [readHeap, he]
      · rcases hn with hn | hn
        · simpa [readHeap, he] using hlive n hn
        · exact absurd hn.symm he

theorem Inv_pop (s : State) (h : Inv s) : Inv (con_pop s).st := by
  rcases hc : s.chain with _ | ⟨n, rest⟩
  · rw [con_pop_nil s hc]; exact h
  · obtain ⟨hnd, hch, hret, hlive⟩ := h
    rw [hc] at hnd hch hlive
    have hn : n ≠ NULL := (hch n (List.mem_cons_self _ _)).1
    rw [con_pop_cons s n rest hc hn]
    rw [List.nodup_cons] at hnd
    refine ⟨hnd.2, ?_, ?_, ?_⟩
    · intro m hm
      exact hch m (List.mem_cons_of_mem _ hm)
    · intro r hr
      simp only [List.mem_append, List.mem_singleton] at hr
      rcases hr with hr | hr
      · have := hret r hr
        rw [hc] at this
        exact ⟨this.1, fun hm => this.2 (List.mem_cons_of_mem _ hm)⟩
      · subst hr
        exact ⟨(hch n (List.mem_cons_self _ _)).2, hnd.1⟩
    · intro m hm
      exact hlive m (List.mem_cons_of_mem _ hm)

theorem valueAt_push_old (v : Ptr) (s : State) (n : Ptr) (hn : n ≤ s.brk) :
    valueAt (con_push true v s).st n = valueAt s n := by
  rw [con_push_ok]
  have hne : ¬ (s.brk + 1 = n) := fun he => Nat.not_succ_le_self _ (he ▸ hn)
  simp [valueAt, readHeap, hne]

theorem valueAt_push_new (v : Ptr) (s : State) :
    valueAt (con_push true v s).st (s.brk + 1) = v := by
  rw [con_push_ok]
  simp [valueAt, readHeap]

theorem contents_push (v : Ptr) (s : State) (h : Inv s) :
    contents (con_push true v s).st = contents s ++ [v] := by
  have hchain : (con_push true v s).st.chain = s.chain ++ [s.brk + 1] := by
    rw [con_push_ok]
  unfold contents
  rw [hchain, List.map_append, List.map_singleton, valueAt_push_new]
  congr 1
  apply List.map_congr_left
  intro n hn
  exact valueAt_push_old v s n (h.2.1 n hn).2

theorem pop_of_contents (s : State) (h : Inv s) (v : Ptr) (vs : List Ptr)
    (hc : contents s = v :: vs) :
    (con_pop s).val = v ∧ contents (con_pop s).st = vs := by
  rcases hch : s.chain with _ | ⟨n, rest⟩
  · rw [(contents_eq_nil s).2 hch] at hc; cases hc
  · have hn : n ≠ NULL := by
      have := h.2.1 n (by rw [hch]; exact List.mem_cons_self _ _)
      exact this.1
    rw [con_pop_cons s n rest hch hn]
    unfold contents at hc
    rw [hch, List.map_cons] at hc
    injection hc with h1 h2
    refine ⟨h1, ?_⟩
    simpa [contents, valueAt] using h2

theorem pop_of_empty (s : State) (hc : contents s = []) :
    (con_pop s).val = NULL ∧ (con_pop s).st = s := by
  rw [con_pop_nil s ((contents_eq_nil s).1 hc)]
  exact ⟨rfl, rfl⟩

theorem run_append (ops1 ops2 : List Op) (s : State) :
    run (ops1 ++ ops2) s =
      ((run ops1 s).1 ++ (run ops2 (run ops1 s).2).1, (run ops2 (run ops1 s).2).2) := by
  induction ops1 generalizing s with
  | nil => simp [run]
  | cons op ops ih => simp [run, ih]

theorem Inv_step (op : Op) (s : State) (h : Inv s) : Inv (step op s).2 := by
  cases op with
  | push ok v => exact Inv_push ok v s h
  | pop => exact Inv_pop s h

theorem Inv_run (ops : List Op) (s : State) (h : Inv s) : Inv (run ops s).2 := by
  induction ops generalizing s with
  | nil => exact h
  | cons op ops ih => exact ih _ (Inv_step op s h)

theorem run_pushes (vs : List Ptr) (s : State) (h : Inv s) :
    (run (vs.map (Op.push true)) s).1 = vs.map (fun v => Obs.push v Q_OK) ∧
      contents (run (vs.map (Op.push true)) s).2 = contents s ++ vs := by
  induction vs generalizing s with
  | nil => simp [run]
  | cons v vs ih =>
    have h1 := ih (con_push true v s).st (Inv_push true v s h)
    rw [contents_push v s h] at h1
    simp only [List.map_cons, run, step]
    refine ⟨?_, ?_⟩
    · rw [h1.1, con_push_ok]
    · rw [h1.2]; simp

theorem run_pops (s : State) (h : Inv s) (vs : List Ptr) (hc : contents s = vs) :
    (run (List.replicate vs.length Op.pop) s).1 = vs.map Obs.pop ∧
      contents (run (List.replicate vs.length Op.pop) s).2 = [] := by
  induction vs generalizing s with
  | nil => simpa [run] using hc
  | cons v vs ih =>
    obtain ⟨hv, hrest⟩ := pop_of_contents s h v vs hc
    have h1 := ih (con_pop s).st (Inv_pop s h) hrest
    simp only [List.length_cons, List.replicate_succ, run, step, List.map_cons]
    exact ⟨by rw [h1.1, hv], h1.2⟩

theorem run_pops_empty (k : Nat) (s : State) (hc : contents s = []) :
    run (List.replicate k Op.pop) s = (List.replicate k (Obs.pop NULL), s) := by
  induction k with
  | zero => rfl
  | succ k ih =>
    obtain ⟨hv, hs⟩ := pop_of_empty s hc
    simp only [List.replicate_succ, run, step]
    rw [hs, ih, hv]

theorem readHeap_filter_self (heap : List (Ptr × node_t)) (p : Ptr) :
    readHeap (heap.filter (fun c => c.1 != p)) p = none := by
  induction heap with
  | nil => rfl
  | cons c heap ih =>
    obtain ⟨a, c⟩ := c
    by_cases hcp : a = p
    · rw [List.filter_cons_of_neg (by simp [hcp])]
      exact ih
    · rw [List.filter_cons_of_pos (by simp [hcp])]
      simp [readHeap, hcp, ih]

theorem Q_ERROR_ne_Q_OK : Q_ERROR ≠ Q_OK := by decide

theorem run_order (ops : List Op) (s : State) (h : Inv s)
    (hs : ∀ v ∈ contents s, v ≠ NULL) (hargs : ∀ v ∈ pushArgs ops, v ≠ NULL) :
    poppedValues (run ops s).1 ++ contents (run ops s).2 =
      contents s ++ pushedOK (run ops s).1 := by
  induction ops generalizing s with
  | nil => simp [run, poppedValues, pushedOK]
  | cons op ops ih =>
    cases op with
    | push ok v =>
      have hv : v ≠ NULL := hargs v (by simp [pushArgs])
      have hrest : ∀ w ∈ pushArgs ops, w ≠ NULL := fun w hw => hargs w (by simp [pushArgs, hw])
      cases ok with
      | false =>
        have := ih s h hs hrest
        simp only [run, step, con_push_fail, poppedValues, pushedOK, Q_ERROR_ne_Q_OK, if_false]
        exact this
      | true =>
        have hc := contents_push v s h
        have hs1 : ∀ w ∈ contents (con_push true v s).st, w ≠ NULL := by
          intro w hw
          rw [hc, List.mem_append, List.mem_singleton] at hw
          rcases hw with hw | hw
          · exact hs w hw
          · rw [hw]; exact hv
        have := ih (con_push true v s).st (Inv_push true v s h) hs1 hrest
        rw [hc] at this
        have hret : (con_push true v s).val = Q_OK := by rw [con_push_ok]
        simp only [run, step, poppedValues, pushedOK, hret, if_true]
        rw [this]
        simp
    | pop =>
      have hrest : ∀ w ∈ pushArgs ops, w ≠ NULL := fun w hw => hargs w (by simpa [pushArgs] using hw)
      rcases hc : contents s with _ | ⟨v, vs⟩
      · obtain ⟨hv, hst⟩ := pop_of_empty s hc
        have := ih s h hs hrest
        rw [hc] at this
        simp only [run, step, poppedValues, pushedOK, hv, hst, if_true]
        exact this
      · obtain ⟨hv, hst⟩ := pop_of_contents s h v vs hc
        have hvn : v ≠ NULL := hs v (by rw [hc]; exact List.mem_cons_self _ _)
        have hs1 : ∀ w ∈ contents (con_pop s).st, w ≠ NULL := by
          intro w hw
          rw [hst] at hw
          exact hs w (by rw [hc]; exact List.mem_cons_of_mem _ hw)
        have := ih (con_pop s).st (Inv_pop s h) hs1 hrest
        rw [hst] at this
        simp only [run, step, poppedValues, pushedOK, hv, hvn, if_false]
        rw [List.cons_append, this]
        simp

theorem contents_run_subset (ops : List Op) (s : State) (h : Inv s) :
    ∀ v ∈ contents (run ops s).2, v ∈ contents s ∨ v ∈ pushArgs ops := by
  induction ops generalizing s with
  | nil => intro v hv; exact Or.inl hv
  | cons op ops ih =>
    intro w hw
    cases op with
    | push ok v =>
      cases ok with
      | false =>
        simp only [run, step, con_push_fail] at hw
        rcases ih s h w hw with h1 | h1
        · exact Or.inl h1
        · exact Or.inr (by simp [pushArgs, h1])
      | true =>
        simp only [run, step] at hw
        rcases ih _ (Inv_push true v s h) w hw with h1 | h1
        · rw [contents_push v s h, List.mem_append, List.mem_singleton] at h1
          rcases h1 with h1 | h1
          · exact Or.inl h1
          · exact Or.inr (by simp [pushArgs, h1])
        · exact Or.inr (by simp [pushArgs, h1])
    | pop =>
      simp only [run, step] at hw
      rcases ih _ (Inv_pop s h) w hw with h1 | h1
      · rcases hc : contents s with _ | ⟨v, vs⟩
        · rw [(pop_of_empty s hc).2, hc] at h1
          exact Or.inl h1
        · rw [(pop_of_contents s h v vs hc).2] at h1
          exact Or.inl (List.mem_cons_of_mem _ h1)
      · exact Or.inr (by simpa [pushArgs] using h1)

theorem insideRegistration_push_loop (n : Nat) (rest : List ThreadCall) :
    insideRegistration false (push_loop (n + 1) ++ rest) = false := by
  simp [push_loop, insideRegistration]

/-! ## Properties of `con_push` and `con_pop` -/

/-- C1, single-thread FIFO: from a freshly initialised queue, pushing the
elements `vs` one after the other with every allocation succeeding and then
calling `con_pop` one time more than there are elements makes every push
return `Q_OK` and the pops return the elements of `vs` in push order followed
by `NULL`.  The scenario push 1, push 2, pop, pop, pop is the instance
`vs = [1, 2]`, spelled out as the second part. -/
theorem single_thread_fifo (vs : List Ptr) :
    (run (vs.map (Op.push true) ++ List.replicate (vs.length + 1) Op.pop) fresh).1 =
        vs.map (fun v => Obs.push v Q_OK) ++ vs.map Obs.pop ++ [Obs.pop NULL] ∧
      (run [Op.push true 1, Op.push true 2, Op.pop, Op.pop, Op.pop] fresh).1 =
        [Obs.push 1 Q_OK, Obs.push 2 Q_OK, Obs.pop 1, Obs.pop 2, Obs.pop NULL] := by
  refine ⟨?_, by decide⟩
  obtain ⟨hobs, hcont⟩ := run_pushes vs fresh Inv_fresh
  rw [contents_fresh, List.nil_append] at hcont
  have hinv := Inv_run (vs.map (Op.push true)) fresh Inv_fresh
  obtain ⟨hpops, hempty⟩ := run_pops _ hinv vs hcont
  rw [List.replicate_succ', run_append, run_append]
  simp only [hobs, hpops]
  have hlast := run_pops_empty 1 _ hempty
  rw [List.replicate_one] at hlast
  rw [hlast]
  simp

/-- C3, counterexample: after `con_push(queue, NULL)` has succeeded on a fresh
queue, the queue holds one entry and `con_pop` returns `NULL`. -/
theorem pop_null_on_nonempty_queue :
    ¬ ((con_pop (run [Op.push true NULL] fresh).2).val = NULL ↔
        contents (run [Op.push true NULL] fresh).2 = []) := by
  decide

/-- C3, amended: in every state reached from a fresh queue by calls of
`con_push` and `con_pop` whose element references are not `NULL`, `con_pop`
returns `NULL` exactly when the queue holds no element, and when the queue
holds elements it returns the oldest one, which is one of the references
passed to `con_push`. -/
theorem pop_null_iff_empty (ops : List Op) (hargs : ∀ v ∈ pushArgs ops, v ≠ NULL) :
    ((con_pop (run ops fresh).2).val = NULL ↔ contents (run ops fresh).2 = []) ∧
      ∀ v vs, contents (run ops fresh).2 = v :: vs →
        (con_pop (run ops fresh).2).val = v ∧ v ∈ pushArgs ops := by
  have hinv := Inv_run ops fresh Inv_fresh
  have hsub := contents_run_subset ops fresh Inv_fresh
  rw [contents_fresh] at hsub
  have hmem : ∀ v ∈ contents (run ops fresh).2, v ∈ pushArgs ops := by
    intro v hv
    rcases hsub v hv with h | h
    · cases h
    · exact h
  constructor
  · rcases hc : contents (run ops fresh).2 with _ | ⟨v, vs⟩
    · simp [(pop_of_empty _ hc).1]
    · have hv := (pop_of_contents _ hinv v vs hc).1
      have hvn : v ≠ NULL := hargs v (hmem v (by rw [hc]; exact List.mem_cons_self _ _))
      simp [hv, hvn]
  · intro v vs hc
    exact ⟨(pop_of_contents _ hinv v vs hc).1, hmem v (by rw [hc]; exact List.mem_cons_self _ _)⟩

/-- Witness for `pop_null_iff_empty`: push 5, pop, push 6. -/
theorem pop_null_iff_empty_witness :
    (∀ v ∈ pushArgs [Op.push true 5, Op.pop, Op.push true 6], v ≠ NULL) ∧
      (((con_pop (run [Op.push true 5, Op.pop, Op.push true 6] fresh).2).val = NULL ↔
          contents (run [Op.push true 5, Op.pop, Op.push true 6] fresh).2 = []) ∧
        ∀ v vs, contents (run [Op.push true 5, Op.pop, Op.push true 6] fresh).2 = v :: vs →
          (con_pop (run [Op.push true 5, Op.pop, Op.push true 6] fresh).2).val = v ∧
            v ∈ pushArgs [Op.push true 5, Op.pop, Op.push true 6]) :=
  ⟨by decide, pop_null_iff_empty [Op.push true 5, Op.pop, Op.push true 6] (by decide)⟩

/-- C4, alloc-failure atomicity: in every state and for every element
reference, a `con_push` whose node allocation fails returns `Q_ERROR` and
leaves the whole state as it was, so the queue holds the same elements and any
number of later `con_pop` calls return what they would have returned without
the push. -/
theorem alloc_failure_atomic (s : State) (v : Ptr) (k : Nat) :
    (con_push false v s).val = Q_ERROR ∧
      (con_push false v s).st = s ∧
      contents (con_push false v s).st = contents s ∧
      run (List.replicate k Op.pop) (con_push false v s).st =
        run (List.replicate k Op.pop) s := by
  rw [con_push_fail]
  exact ⟨rfl, rfl, rfl, rfl⟩

/-- C5, empty-queue stability: `con_pop` on a freshly initialised queue
returns `NULL`; and on any state whose queue holds no element a `con_pop`
returns `NULL`, hands nothing to `call_rcu` and leaves the state as it was, so
`k` pops in a row all return `NULL` and end in that same state. -/
theorem empty_queue_stability (s : State) (hc : contents s = []) (k : Nat) :
    (con_pop fresh).val = NULL ∧
      (con_pop s).val = NULL ∧
      (con_pop s).st = s ∧
      callsCallRcu (con_pop s).log = false ∧
      run (List.replicate k Op.pop) s = (List.replicate k (Obs.pop NULL), s) := by
  refine ⟨(pop_of_empty fresh contents_fresh).1, (pop_of_empty s hc).1, (pop_of_empty s hc).2,
    ?_, run_pops_empty k s hc⟩
  rw [con_pop_nil s ((contents_eq_nil s).1 hc)]
  rfl

/-- Witness for `empty_queue_stability`: three pops on the fresh queue. -/
theorem empty_queue_stability_witness :
    contents fresh = [] ∧
      (con_pop fresh).val = NULL ∧
      (con_pop fresh).st = fresh ∧
      run (List.replicate 3 Op.pop) fresh = (List.replicate 3 (Obs.pop NULL), fresh) :=
  ⟨by decide, (empty_queue_stability fresh (by decide) 3).2.1,
    (empty_queue_stability fresh (by decide) 3).2.2.1,
    (empty_queue_stability fresh (by decide) 3).2.2.2.2⟩

/-- C6, counterexample: push `NULL`, then pop.  The push returns `Q_OK`, the
pop returns `NULL`, the queue ends empty: no value other than `NULL` was
returned and nothing is left in the queue, yet one element was pushed. -/
theorem null_element_breaks_order :
    poppedValues (run [Op.push true NULL, Op.pop] fresh).1 ++
        contents (run [Op.push true NULL, Op.pop] fresh).2 ≠
      pushedOK (run [Op.push true NULL, Op.pop] fresh).1 := by
  decide

/-- C6, amended: for every sequence of `con_push` and `con_pop` calls on one
thread, starting from a fresh queue, in which no element reference is `NULL`,
the values other than `NULL` returned by the pops, followed by the elements
still in the queue, are the elements whose push returned `Q_OK`, in push
order. -/
theorem sequential_order (ops : List Op) (hargs : ∀ v ∈ pushArgs ops, v ≠ NULL) :
    poppedValues (run ops fresh).1 ++ contents (run ops fresh).2 =
      pushedOK (run ops fresh).1 := by
  have h := run_order ops fresh Inv_fresh (by rw [contents_fresh]; intro v hv; cases hv) hargs
  rw [contents_fresh, List.nil_append] at h
  exact h

/-- Witness for `sequential_order`: push 5, a push of 6 whose allocation
fails, pop, pop, push 7. -/
theorem sequential_order_witness :
    (∀ v ∈ pushArgs [Op.push true 5, Op.push false 6, Op.pop, Op.pop, Op.push true 7],
        v ≠ NULL) ∧
      poppedValues
            (run [Op.push true 5, Op.push false 6, Op.pop, Op.pop, Op.push true 7] fresh).1 ++
          contents
            (run [Op.push true 5, Op.push false 6, Op.pop, Op.pop, Op.push true 7] fresh).2 =
        pushedOK
          (run [Op.push true 5, Op.push false 6, Op.pop, Op.pop, Op.push true 7] fresh).1 :=
  ⟨by decide,
    sequential_order [Op.push true 5, Op.push false 6, Op.pop, Op.pop, Op.push true 7]
      (by decide)⟩

/-- C7: in every state reached from a fresh queue, `con_push` returns `Q_OK`
exactly when its node allocation succeeds and `Q_ERROR` exactly when it fails;
after a successful push of `v` the queue holds what it held before followed by
`v` itself, and popping until that entry has come out returns the old elements
and then `v`. -/
theorem con_push_appends (ops : List Op) (v : Ptr) :
    (∀ ok, (con_push ok v (run ops fresh).2).val = Q_OK ↔ ok = true) ∧
      (∀ ok, (con_push ok v (run ops fresh).2).val = Q_ERROR ↔ ok = false) ∧
      contents (con_push true v (run ops fresh).2).st = contents (run ops fresh).2 ++ [v] ∧
      (run (List.replicate ((contents (run ops fresh).2).length + 1) Op.pop)
          (con_push true v (run ops fresh).2).st).1 =
        (contents (run ops fresh).2 ++ [v]).map Obs.pop := by
  have hinv := Inv_run ops fresh Inv_fresh
  have hc := contents_push v _ hinv
  refine ⟨?_, ?_, hc, ?_⟩
  · intro ok
    cases ok
    · rw [con_push_fail]; simp [Q_ERROR_ne_Q_OK]
    · rw [con_push_ok]; simp
  · intro ok
    cases ok
    · rw [con_push_fail]; simp
    · rw [con_push_ok]; simp [Ne.symm Q_ERROR_ne_Q_OK]
  · have h := (run_pops _ (Inv_push true v _ hinv) _ hc).1
    rw [List.length_append, List.length_singleton] at h
    exact h

/-- C9, counterexample: a `con_push` whose allocation fails returns before
`urcu_memb_read_lock` is reached, so it does not call it once. -/
theorem failed_push_opens_no_section :
    occurrences Event.urcu_memb_read_lock (con_push false 7 fresh).log ≠ 1 := by
  decide

/-- C9, amended: in every state, a `con_push` whose allocation succeeds and
every `con_pop` call `urcu_memb_read_lock` once and `urcu_memb_read_unlock`
once, with the enqueue, respectively the dequeue, as the one call between
them; a `con_push` whose allocation fails calls neither; and in all three
cases the nesting depth of the thread on return is its depth on entry. -/
theorem critical_section_bracket (s : State) (v : Ptr) :
    ((∃ before node,
          (con_push true v s).log =
            before ++ [Event.urcu_memb_read_lock, Event.cds_lfq_enqueue_rcu node,
              Event.urcu_memb_read_unlock]) ∧
        occurrences Event.urcu_memb_read_lock (con_push true v s).log = 1 ∧
        occurrences Event.urcu_memb_read_unlock (con_push true v s).log = 1 ∧
        (con_push true v s).st.depth = s.depth) ∧
      (occurrences Event.urcu_memb_read_lock (con_push false v s).log = 0 ∧
        occurrences Event.urcu_memb_read_unlock (con_push false v s).log = 0 ∧
        (con_push false v s).st.depth = s.depth) ∧
      ((∃ qnode after,
          (con_pop s).log =
            [Event.urcu_memb_read_lock, Event.cds_lfq_dequeue_rcu qnode,
              Event.urcu_memb_read_unlock] ++ after) ∧
        occurrences Event.urcu_memb_read_lock (con_pop s).log = 1 ∧
        occurrences Event.urcu_memb_read_unlock (con_pop s).log = 1 ∧
        (con_pop s).st.depth = s.depth) := by
  refine ⟨?_, ?_, ?_⟩
  · rw [con_push_ok]
    refine ⟨⟨[Event.malloc (s.brk + 1), Event.store_value (s.brk + 1) v,
      Event.cds_lfq_node_init_rcu (s.brk + 1)], s.brk + 1, rfl⟩, ?_, ?_, rfl⟩
    · simp [occurrences]
    · simp [occurrences]
  · rw [con_push_fail]
    simp [occurrences]
  · rcases hc : s.chain with _ | ⟨n, rest⟩
    · rw [con_pop_nil s hc]
      refine ⟨⟨NULL, [], rfl⟩, ?_, ?_, rfl⟩
      · simp [occurrences]
      · simp [occurrences]
    · by_cases hn : n = NULL
      · have hpop : con_pop s =
            ⟨NULL, [Event.urcu_memb_read_lock, Event.cds_lfq_dequeue_rcu NULL,
              Event.urcu_memb_read_unlock], { s with chain := rest }⟩ := by
          cases s
          simp only at hc
          subst hc hn
          simp [con_pop, bind_apply, pure_apply, urcu_memb_read_lock, cds_lfq_dequeue_rcu,
            urcu_memb_read_unlock, NULL]
        rw [hpop]
        refine ⟨⟨NULL, [], rfl⟩, ?_, ?_, rfl⟩
        · simp [occurrences]
        · simp [occurrences]
      · rw [con_pop_cons s n rest hc hn]
        refine ⟨⟨n, _, rfl⟩, ?_, ?_, rfl⟩
        · simp [occurrences]
        · simp [occurrences]

/-- C10, deferred reclamation on pop: in every state reached from a fresh
queue whose queue is not empty, with `n` its first node, `con_pop` returns the
element stored in `n`, which is the oldest element of the queue and one of the
references passed to `con_push`; it reads that value and then hands `n` to
`urcu_memb_call_rcu` with the callback `free_node`, and calls `free` on
nothing; afterwards the retired list is the previous one followed by `n`,
which was not retired before, `n` is no longer in the queue, the heap is as it
was and `n` is still a live object in it; `n` is released only when
`free_node` is run on it. -/
theorem pop_retires_unlinked_node (ops : List Op) (n : Ptr) (rest : List Ptr)
    (hc : (run ops fresh).2.chain = n :: rest) :
    (con_pop (run ops fresh).2).val = valueAt (run ops fresh).2 n ∧
      contents (run ops fresh).2 =
        (con_pop (run ops fresh).2).val :: contents (con_pop (run ops fresh).2).st ∧
      (con_pop (run ops fresh).2).val ∈ pushArgs ops ∧
      (con_pop (run ops fresh).2).log =
        [Event.urcu_memb_read_lock, Event.cds_lfq_dequeue_rcu n, Event.urcu_memb_read_unlock,
          Event.load_value n (valueAt (run ops fresh).2 n),
          Event.urcu_memb_call_rcu n Callback.free_node] ∧
      callsFree (con_pop (run ops fresh).2).log = false ∧
      (con_pop (run ops fresh).2).st.retired =
        (run ops fresh).2.retired ++ [(n, Callback.free_node)] ∧
      (n, Callback.free_node) ∉ (run ops fresh).2.retired ∧
      (con_pop (run ops fresh).2).st.chain = rest ∧
      n ∉ (con_pop (run ops fresh).2).st.chain ∧
      (con_pop (run ops fresh).2).st.heap = (run ops fresh).2.heap ∧
      readHeap (con_pop (run ops fresh).2).st.heap n ≠ none ∧
      readHeap (free_node n (con_pop (run ops fresh).2).st).st.heap n = none := by
  have hinv := Inv_run ops fresh Inv_fresh
  have hlive : readHeap (run ops fresh).2.heap n ≠ none :=
    hinv.2.2.2 n (by rw [hc]; exact List.mem_cons_self _ _)
  have hfree : ∀ t : State, readHeap (free_node n t).st.heap n = none := by
    intro t
    simp [free_node, free, caa_container_of, readHeap_filter_self]
  have hn : n ≠ NULL := (hinv.2.1 n (by rw [hc]; exact List.mem_cons_self _ _)).1
  have hnd : n ∉ rest := by
    have := hinv.1
    rw [hc, List.nodup_cons] at this
    exact this.1
  have hcont : contents (run ops fresh).2 =
      valueAt (run ops fresh).2 n :: rest.map (valueAt (run ops fresh).2) := by
    simp [contents, hc]
  have hmem : valueAt (run ops fresh).2 n ∈ pushArgs ops := by
    have := contents_run_subset ops fresh Inv_fresh (valueAt (run ops fresh).2 n)
      (by rw [hcont]; exact List.mem_cons_self _ _)
    rw [contents_fresh] at this
    rcases this with h | h
    · cases h
    · exact h
  have hret : (n, Callback.free_node) ∉ (run ops fresh).2.retired := by
    intro hmem
    have := (hinv.2.2.1 _ hmem).2
    exact this (by rw [hc]; exact List.mem_cons_self _ _)
  rw [con_pop_cons _ n rest hc hn]
  refine ⟨rfl, ?_, hmem, rfl, rfl, rfl, hret, rfl, hnd, rfl, hlive, hfree _⟩
  rw [hcont]
  simp [contents, valueAt]

/-- Witness for `pop_retires_unlinked_node`: after one push of 5 on the fresh
queue the first node is at address 2. -/
theorem pop_retires_unlinked_node_witness :
    (run [Op.push true 5] fresh).2.chain = [2] ∧
      (con_pop (run [Op.push true 5] fresh).2).val = 5 ∧
      (con_pop (run [Op.push true 5] fresh).2).st.retired =
        (run [Op.push true 5] fresh).2.retired ++ [(2, Callback.free_node)] ∧
      (con_pop (run [Op.push true 5] fresh).2).st.chain = [] :=
  ⟨by decide,
    (pop_retires_unlinked_node [Op.push true 5] 2 [] (by decide)).1,
    (pop_retires_unlinked_node [Op.push true 5] 2 [] (by decide)).2.2.2.2.2.1,
    (pop_retires_unlinked_node [Op.push true 5] 2 [] (by decide)).2.2.2.2.2.2.2.1⟩

/-! ## Thread registration in the demo program -/

/-- C2: `main` registers before its `con_push` calls and unregisters after
them, but the bodies of `push_thread` and `pop_thread` call `con_push` and
`con_pop` without ever registering: the scan fails on `push_thread` and on
`pop_thread` as soon as its loop has run once. -/
theorem worker_threads_never_register :
    insideRegistration false main = true ∧
      insideRegistration false push_thread = false ∧
      ∀ (r : Popped) (rs : List Popped), insideRegistration false (pop_thread (r :: rs)) = false := by
  refine ⟨by decide, ?_, ?_⟩
  · exact insideRegistration_push_loop 999999 [ThreadCall.thrd_exit]
  · intro r rs
    cases r <;> simp [pop_thread, insideRegistration]

end LearnUrcu
